import Mathlib

/-!
# mccalc-bot: quantity parser and unit converter

A shallow embedding of `src/main.go` (functions `parseAmount`, `mod`, `calc` and the
dispatch of `onMessage`) together with the Go library functions they call.

Conventions of the embedding.

* Go `int` is taken 64 bits wide (the gc toolchain on 64-bit targets).  An `int` value is an
  `Int` between `minInt` and `maxInt`; arithmetic that can leave the range is wrapped with
  `wrapInt`.
* A Go `string` is a list of characters.  Every character the code inspects (`@`, `+`, `-`,
  the digits) is ASCII, so the byte view and the character view agree.
* A `float64` that holds an integer is represented by that integer.  `float64OfInt` is the
  conversion `float64(x)` (round to nearest, ties to even, 53 significant bits); every value
  it produces is an integer.
* A run-time panic is `none` in `Option`.
-/

namespace McCalc

/-! ## Go values -/

/-- Go strings, as character sequences. -/
abbrev GoString := List Char

/-- Largest value of a 64-bit Go `int`. -/
def maxInt : Int := 2 ^ 63 - 1

/-- Smallest value of a 64-bit Go `int`. -/
def minInt : Int := -(2 ^ 63)

/-- Two's-complement wrap-around of a mathematical integer into the 64-bit `int` range. -/
def wrapInt (z : Int) : Int := (z + 2 ^ 63) % 2 ^ 64 - 2 ^ 63

/-- Go integer division `a / b`: truncation toward zero, a run-time panic (`none`) on a zero
divisor, and wrap-around for the single overflowing quotient `minInt / -1`. -/
def goDiv (a b : Int) : Option Int :=
  if b = 0 then none else some (wrapInt (Int.tdiv a b))

/-! ## `float64` conversion and `math.Mod` on integer-valued doubles -/

/-- Helper of `excessBits`: counts the halvings needed to bring `n` below `2 ^ 53`. -/
def excessBitsAux : Nat → Nat → Nat
  | 0, _ => 0
  | fuel + 1, n => if n < 2 ^ 53 then 0 else excessBitsAux fuel (n / 2) + 1

/-- Number of low-order bits of `n` that do not fit a 53-bit significand. -/
def excessBits (n : Nat) : Nat := excessBitsAux n n

/-- Rounding of a natural number to 53 significant bits, to nearest, ties to even. -/
def roundNat (n : Nat) : Nat :=
  let sh := excessBits n
  let q := n / 2 ^ sh
  let r := n % 2 ^ sh
  if 2 ^ sh < 2 * r ∨ (2 * r = 2 ^ sh ∧ q % 2 = 1) then (q + 1) * 2 ^ sh else q * 2 ^ sh

/-- The conversion `float64(x)` of a Go `int`; the resulting double is an integer. -/
def float64OfInt (z : Int) : Int :=
  if z < 0 then -((roundNat z.natAbs : Nat) : Int) else ((roundNat z.natAbs : Nat) : Int)

/-- Go `math.Mod(x, y)` on finite integer-valued doubles: the result has the sign of `x` and
magnitude `|x| mod |y|`, computed exactly.  `none` stands for the NaN returned when `y = 0`. -/
def mathMod (x y : Int) : Option Int :=
  if y = 0 then none else some (Int.tmod x y)

/-- The conversion `int(f)` of an integer-valued double: the value itself when it lies in the
`int` range; outside of it the language fixes no result (`none`). -/
def intOfFloat64 (f : Int) : Option Int :=
  if minInt ≤ f ∧ f ≤ maxInt then some f else none

/-- Source `mod` (main.go, lines 46-48): `int(math.Mod(float64(x), float64(y)))`.  `none`
covers the NaN case, whose conversion to `int` the language leaves open. -/
def mod (x y : Int) : Option Int :=
  (mathMod (float64OfInt x) (float64OfInt y)).bind intOfFloat64

/-! ## Go library string functions -/

/-- Go `strings.Split(s, sep)` for a separator of one character. -/
def Split : GoString → Char → List GoString
  | [], _ => [[]]
  | c :: t, sep =>
    if c = sep then [] :: Split t sep
    else
      match Split t sep with
      | [] => [[c]]
      | h :: r => (c :: h) :: r

/-- Go `strings.Join(elems, sep)` for a separator of one character. -/
def Join : List GoString → Char → GoString
  | [], _ => []
  | [a], _ => a
  | a :: b :: t, sep => a ++ sep :: Join (b :: t) sep

/-- Value of a decimal digit character. -/
def digitValue (c : Char) : Nat := c.toNat - 48

/-- Value of a digit sequence read in base ten, most significant digit first. -/
def digitsValue (cs : List Char) : Nat :=
  cs.foldl (fun n c => n * 10 + digitValue c) 0

/-- The text of an `Atoi` argument behind its optional leading sign. -/
def stripSign : GoString → GoString
  | '-' :: t => t
  | '+' :: t => t
  | s => s

/-- Go `strconv.Atoi`: an optional sign `+` or `-`, then one or more decimal digits, with a
value inside the `int` range.  `none` is the returned error (syntax or range). -/
def Atoi (s : GoString) : Option Int :=
  if stripSign s = [] ∨ (stripSign s).all Char.isDigit = false then none
  else
    let n : Int := (digitsValue (stripSign s) : Nat)
    let v : Int := if s.head? = some '-' then -n else n
    if minInt ≤ v ∧ v ≤ maxInt then some v else none

/-- Go `fmt.Sprintf("%d", z)`: decimal digits, preceded by `-` for a negative value. -/
def decimal (z : Int) : GoString :=
  if z < 0 then '-' :: Nat.toDigits 10 z.natAbs else Nat.toDigits 10 z.natAbs

/-- Go `strings.HasSuffix(s, suffix)`. -/
def HasSuffix (s suffix : GoString) : Bool := suffix.isSuffixOf s

/-- Go `strings.TrimSuffix(s, suffix)`. -/
def TrimSuffix (s suffix : GoString) : GoString :=
  if HasSuffix s suffix then s.take (s.length - suffix.length) else s

/-! ## The program -/

/-- Source `parseAmount` (main.go, lines 20-43).  The triple is the Go result
`(stack size, item count, error)`; the error is `none` for `nil` and carries the message
otherwise. -/
def parseAmount (s : GoString) : Int × Int × Option GoString :=
  match Split s '@' with
  | [sp0, sp1] =>
    match Atoi sp1 with
    | none => (64, 0, some ("strconv error: sp1 (".toList ++ sp1 ++ ")".toList))
    | some i2 =>
      match Atoi sp0 with
      | none => (64, 0, some ("strconv error: sp0 (".toList ++ sp0 ++ ")".toList))
      | some i => (i2, i, none)
  | _ =>
    match Atoi s with
    | none => (64, 0, some ("strconv error: ".toList ++ s))
    | some i => (64, i, none)

/-- The arithmetic of source `calc` (main.go, lines 52-57): the large-crate count `lc`, the
crate count `sb`, the stack count `st` and the final value of `amount`.  `none` is the
run-time panic of an integer division by zero. -/
def calcParts (amount size : Int) : Option (Int × Int × Int × Int) := do
  let lc ← goDiv amount (wrapInt (54 * size))
  let amount ← mod amount (wrapInt (54 * size))
  let sb ← goDiv amount (wrapInt (27 * size))
  let amount ← mod amount (wrapInt (27 * size))
  let st ← goDiv amount size
  let amount ← mod amount size
  pure (lc, sb, st, amount)

/-- The rendering of source `calc` (main.go, lines 59-73): the terms with a positive count, in
the order large crate, crate, stack, loose, joined with `+`. -/
def calcRender (p : Int × Int × Int × Int) : GoString :=
  let res : List GoString := []
  let res := if p.1 > 0 then res ++ [decimal p.1 ++ "LC".toList] else res
  let res := if p.2.1 > 0 then res ++ [decimal p.2.1 ++ "c".toList] else res
  let res := if p.2.2.1 > 0 then res ++ [decimal p.2.2.1 ++ "st".toList] else res
  let res := if p.2.2.2 > 0 then res ++ [decimal p.2.2.2] else res
  Join res '+'

/-- Source `calc` (main.go, lines 51-74); `calc` being a keyword of Lean, the embedding is
named `calcUnits`. -/
def calcUnits (amount size : Int) : Option GoString :=
  (calcParts amount size).map calcRender

/-- What a call of `onMessage` does. -/
inductive Outcome
  | ignored
  | reply (content : GoString)
  | reaction
  | panicked
  deriving DecidableEq

/-- Source `onMessage` (main.go, lines 77-100) for a message with the given author flag and
content: messages of bots and messages not ending in `?=` are ignored, a parse error is
answered with the reaction, a successful parse with the reply `calc(amount, size)`. -/
def onMessage (authorIsBot : Bool) (content : GoString) : Outcome :=
  if authorIsBot then Outcome.ignored
  else if HasSuffix content "?=".toList then
    match parseAmount (TrimSuffix content "?=".toList) with
    | (size, amount, none) =>
      match calcUnits amount size with
      | some r => Outcome.reply r
      | none => Outcome.panicked
    | (_, _, some _) => Outcome.reaction
  else Outcome.ignored


/-! ## A decoder for the replies of `calc` and the converter of the specification -/

/-- Value, in items, of one term of a reply: the leading digits give the count and the
letters behind them the unit (`LC` for 54 stacks, `c` for 27 stacks, `st` for one stack,
nothing for loose items). -/
def decodeTerm (t : GoString) (stackSize : Int) : Int :=
  let v : Int := (digitsValue (t.takeWhile Char.isDigit) : Nat)
  let u := t.dropWhile Char.isDigit
  if u = "LC".toList then v * 54 * stackSize
  else if u = "c".toList then v * 27 * stackSize
  else if u = "st".toList then v * stackSize
  else v

/-- The companion inverse of `calc`: the item count that a reply stands for, the sum of the
values of its `+`-separated terms. -/
def decode (reply : GoString) (stackSize : Int) : Int :=
  ((Split reply '+').map (fun t => decodeTerm t stackSize)).sum

/-- The Unit Converter in the words of the specification (section 4.2): the fixed-radix
decomposition by integer division and remainder, then each nonzero term in the order large
crate, crate, stack, loose, a count in decimal followed by its suffix, joined with `+`. -/
def specConvert (itemCount stackSize : Int) : GoString :=
  let largeCrateCount := itemCount / (54 * stackSize)
  let r1 := itemCount % (54 * stackSize)
  let crateCount := r1 / (27 * stackSize)
  let r2 := r1 % (27 * stackSize)
  let stackCount := r2 / stackSize
  let r3 := r2 % stackSize
  let terms : List (Int × GoString) :=
    [(largeCrateCount, "LC".toList), (crateCount, "c".toList), (stackCount, "st".toList),
      (r3, [])]
  Join ((terms.filter (fun t => decide (t.1 ≠ 0))).map (fun t => decimal t.1 ++ t.2)) '+'

/-- The terms that `calc` appends for counts that are natural numbers. -/
def termsOf (lc sb st r : Nat) : List GoString :=
  (if 0 < lc then [Nat.toDigits 10 lc ++ "LC".toList] else []) ++
  (if 0 < sb then [Nat.toDigits 10 sb ++ "c".toList] else []) ++
  (if 0 < st then [Nat.toDigits 10 st ++ "st".toList] else []) ++
  (if 0 < r then [Nat.toDigits 10 r] else [])

/-- A natural number that a `float64` holds exactly: it is a multiple of the weight
`2 ^ excessBits n` of its last significant bit. -/
def Representable (n : Nat) : Prop := 2 ^ excessBits n ∣ n

instance (n : Nat) : Decidable (Representable n) :=
  inferInstanceAs (Decidable (2 ^ excessBits n ∣ n))

/-! ## Rounding to 53 significant bits -/

theorem excessBitsAux_spec : ∀ (fuel n : Nat), n < 2 ^ (53 + fuel) →
    n < 2 ^ (53 + excessBitsAux fuel n) ∧
      (excessBitsAux fuel n ≠ 0 → 2 ^ (52 + excessBitsAux fuel n) ≤ n) := by
  intro fuel
  induction fuel with
  | zero =>
    intro n hn
    simp only [excessBitsAux]
    exact ⟨hn, fun h => absurd rfl h⟩
  | succ fuel ih =>
    intro n hn
    unfold excessBitsAux
    by_cases hlt : n < 2 ^ 53
    · rw [if_pos hlt]
      exact ⟨hlt, fun h => absurd rfl h⟩
    · rw [if_neg hlt]
      have hhalf : n / 2 < 2 ^ (53 + fuel) := by
        have : (2 : Nat) ^ (53 + (fuel + 1)) = 2 ^ (53 + fuel) * 2 := by
          rw [← Nat.add_assoc, Nat.pow_succ]
        omega
      obtain ⟨h1, h2⟩ := ih (n / 2) hhalf
      have e1 : (2 : Nat) ^ (53 + (excessBitsAux fuel (n / 2) + 1))
          = 2 ^ (53 + excessBitsAux fuel (n / 2)) * 2 := by
        rw [← Nat.add_assoc, Nat.pow_succ]
      have e2 : (2 : Nat) ^ (52 + (excessBitsAux fuel (n / 2) + 1))
          = 2 ^ (52 + excessBitsAux fuel (n / 2)) * 2 := by
        rw [← Nat.add_assoc, Nat.pow_succ]
      refine ⟨by omega, fun _ => ?_⟩
      by_cases hz : excessBitsAux fuel (n / 2) = 0
      · rw [hz]
        have : (2 : Nat) ^ (52 + (0 + 1)) = 2 ^ 53 := by norm_num
        omega
      · have := h2 hz
        omega

theorem excessBits_lt (n : Nat) : n < 2 ^ (53 + excessBits n) :=
  (excessBitsAux_spec n n (lt_of_lt_of_le (Nat.lt_pow_self (by norm_num) n)
    (Nat.pow_le_pow_right (by norm_num) (by omega)))).1

theorem excessBits_le (n : Nat) (h : excessBits n ≠ 0) : 2 ^ (52 + excessBits n) ≤ n :=
  (excessBitsAux_spec n n (lt_of_lt_of_le (Nat.lt_pow_self (by norm_num) n)
    (Nat.pow_le_pow_right (by norm_num) (by omega)))).2 h

theorem excessBits_eq_zero {n : Nat} (h : n < 2 ^ 53) : excessBits n = 0 := by
  by_contra hne
  have h1 := excessBits_le n hne
  have h2 : (2 : Nat) ^ 53 ≤ 2 ^ (52 + excessBits n) :=
    Nat.pow_le_pow_right (by norm_num) (by omega)
  omega

theorem excessBits_ne_zero {n : Nat} (h : 2 ^ 53 ≤ n) : excessBits n ≠ 0 := by
  intro h0
  have h1 := excessBits_lt n
  rw [h0] at h1
  exact absurd h (by simpa using h1)

/-- Below `2 ^ 53` the conversion to `float64` is exact. -/
theorem roundNat_of_lt {n : Nat} (h : n < 2 ^ 53) : roundNat n = n := by
  simp [roundNat, excessBits_eq_zero h, Nat.mod_one]

/-- The rounded value is at least the truncated one. -/
theorem roundNat_ge_trunc (n : Nat) :
    n / 2 ^ excessBits n * 2 ^ excessBits n ≤ roundNat n := by
  unfold roundNat
  simp only
  split
  · exact Nat.mul_le_mul_right _ (Nat.le_succ _)
  · exact le_refl _

/-- From `2 ^ 53` on the conversion never goes below `2 ^ 53`. -/
theorem roundNat_ge {n : Nat} (h : 2 ^ 53 ≤ n) : 2 ^ 53 ≤ roundNat n := by
  have hne := excessBits_ne_zero h
  have hle := excessBits_le n hne
  have hpos : 0 < 2 ^ excessBits n := Nat.pos_pow_of_pos _ (by norm_num)
  have hq : 2 ^ 52 ≤ n / 2 ^ excessBits n := by
    rw [Nat.le_div_iff_mul_le hpos, ← Nat.pow_add]
    exact hle
  calc 2 ^ 53 ≤ 2 ^ (52 + excessBits n) := Nat.pow_le_pow_right (by norm_num) (by omega)
    _ = 2 ^ 52 * 2 ^ excessBits n := Nat.pow_add _ _ _
    _ ≤ n / 2 ^ excessBits n * 2 ^ excessBits n := Nat.mul_le_mul_right _ hq
    _ ≤ roundNat n := roundNat_ge_trunc n

theorem roundNat_pos {n : Nat} (h : 0 < n) : 0 < roundNat n := by
  by_cases hlt : n < 2 ^ 53
  · rw [roundNat_of_lt hlt]; exact h
  · have := roundNat_ge (Nat.le_of_not_lt hlt)
    have h53 : 0 < 2 ^ 53 := by norm_num
    omega

/-- For a dividend below `2 ^ 53` the remainder by the rounded divisor is the remainder by the
divisor itself. -/
theorem mod_roundNat_of_lt {x y : Nat} (hx : x < 2 ^ 53) :
    x % roundNat y = x % y := by
  by_cases hlt : y < 2 ^ 53
  · rw [roundNat_of_lt hlt]
  · have h1 := roundNat_ge (Nat.le_of_not_lt hlt)
    rw [Nat.mod_eq_of_lt (by omega), Nat.mod_eq_of_lt (by omega)]

/-! ## `mod` and `calcParts` on the exact range -/

theorem float64OfInt_natCast (n : Nat) : float64OfInt (n : Int) = (roundNat n : Nat) := by
  unfold float64OfInt
  rw [if_neg (by omega), Int.natAbs_ofNat]

theorem maxInt_eq : maxInt = 9223372036854775807 := by norm_num [maxInt]

theorem minInt_eq : minInt = -9223372036854775808 := by norm_num [minInt]

theorem wrapInt_eq (z : Int) :
    wrapInt z = (z + 9223372036854775808) % 18446744073709551616 - 9223372036854775808 := by
  norm_num [wrapInt]

theorem wrapInt_of_range {z : Int} (h0 : minInt ≤ z) (h1 : z ≤ maxInt) : wrapInt z = z := by
  rw [maxInt_eq] at h1
  rw [minInt_eq] at h0
  rw [wrapInt_eq]
  omega

/-- Below `2 ^ 53` the helper `mod` is the integer remainder. -/
theorem mod_natCast_of_lt {x y : Nat} (hx : x < 2 ^ 53) (hy : 0 < y) (hy2 : (y : Int) ≤ maxInt) :
    mod (x : Int) (y : Int) = some ((x % y : Nat) : Int) := by
  have hr := roundNat_pos hy
  have hm := mod_roundNat_of_lt (y := y) hx
  have hlt : x % y < y := Nat.mod_lt _ hy
  unfold mod mathMod
  rw [float64OfInt_natCast, float64OfInt_natCast, roundNat_of_lt hx, if_neg (by omega),
    ← Int.ofNat_tmod, hm]
  simp only [Option.some_bind, intOfFloat64]
  rw [maxInt_eq] at hy2 ⊢
  rw [minInt_eq]
  rw [if_pos (by omega)]

theorem goDiv_natCast {x y : Nat} (hy : 0 < y) (hx : (x : Int) ≤ maxInt) :
    goDiv (x : Int) (y : Int) = some ((x / y : Nat) : Int) := by
  have hle : x / y ≤ x := Nat.div_le_self _ _
  have hnn : (0 : Int) ≤ ((x / y : Nat) : Int) := Int.ofNat_nonneg _
  have hle2 : ((x / y : Nat) : Int) ≤ (x : Int) := Int.ofNat_le.mpr hle
  have hw : wrapInt ((x / y : Nat) : Int) = ((x / y : Nat) : Int) :=
    wrapInt_of_range (by rw [minInt_eq]; omega) (by omega)
  unfold goDiv
  rw [if_neg (by omega), ← Int.ofNat_tdiv, hw]

/-- On the exact range `calcParts` is the mixed-radix decomposition by integer division. -/
theorem calcParts_natCast {a s : Nat} (ha : a < 2 ^ 53) (hs : 0 < s)
    (hov : (54 * s : Int) ≤ maxInt) :
    calcParts (a : Int) (s : Int) = some
      (((a / (54 * s) : Nat) : Int),
       ((a % (54 * s) / (27 * s) : Nat) : Int),
       ((a % (54 * s) % (27 * s) / s : Nat) : Int),
       ((a % (54 * s) % (27 * s) % s : Nat) : Int)) := by
  have hmax := maxInt_eq
  have hmin := minInt_eq
  have h53 : (2 : Nat) ^ 53 = 9007199254740992 := by norm_num
  have w54 : wrapInt (54 * (s : Int)) = ((54 * s : Nat) : Int) := by
    rw [wrapInt_of_range (by omega) hov]; push_cast; rfl
  have w27 : wrapInt (27 * (s : Int)) = ((27 * s : Nat) : Int) := by
    rw [wrapInt_of_range (by omega) (by omega)]; push_cast; rfl
  have h1 : a % (54 * s) < 2 ^ 53 := lt_of_le_of_lt (Nat.mod_le _ _) ha
  have h2 : a % (54 * s) % (27 * s) < 2 ^ 53 := lt_of_le_of_lt (Nat.mod_le _ _) h1
  unfold calcParts
  rw [w54, w27, goDiv_natCast (by omega) (by omega),
    mod_natCast_of_lt ha (by omega) (by push_cast; omega)]
  simp only [Option.bind_eq_bind, Option.some_bind]
  rw [goDiv_natCast (by omega) (by omega), mod_natCast_of_lt h1 (by omega) (by push_cast; omega)]
  simp only [Option.some_bind]
  rw [goDiv_natCast (by omega) (by omega), mod_natCast_of_lt h2 (by omega) (by omega)]
  rfl

/-! ## Decimal digits -/

theorem digitChar_isDigit : ∀ k < 10, (Nat.digitChar k).isDigit = true := by decide

theorem digitValue_digitChar : ∀ k < 10, digitValue (Nat.digitChar k) = k := by decide

theorem digitsValue_append (xs : List Char) (c : Char) :
    digitsValue (xs ++ [c]) = digitsValue xs * 10 + digitValue c := by
  simp [digitsValue, List.foldl_append]

/-- The digit string that `Nat.toDigitsCore` puts in front of its accumulator. -/
theorem toDigitsCore_spec : ∀ (n fuel : Nat), n < fuel →
    ∃ ds : List Char, ds ≠ [] ∧ (∀ c ∈ ds, c.isDigit = true) ∧ digitsValue ds = n ∧
      ∀ acc, Nat.toDigitsCore 10 fuel n acc = ds ++ acc := by
  intro n
  induction n using Nat.strong_induction_on with
  | _ n ih =>
    intro fuel hf
    obtain ⟨f, rfl⟩ : ∃ f, fuel = f + 1 := ⟨fuel - 1, by omega⟩
    by_cases h0 : n / 10 = 0
    · refine ⟨[Nat.digitChar (n % 10)], by simp, ?_, ?_, ?_⟩
      · intro c hc
        rw [List.mem_singleton] at hc
        rw [hc]
        exact digitChar_isDigit _ (Nat.mod_lt _ (by norm_num))
      · have hlt : n % 10 < 10 := Nat.mod_lt _ (by norm_num)
        have := digitValue_digitChar _ hlt
        simp only [digitsValue, List.foldl_cons, List.foldl_nil]
        omega
      · intro acc
        simp [Nat.toDigitsCore, h0]
    · obtain ⟨ds, hne, hdig, hval, hcore⟩ := ih (n / 10) (by omega) f (by omega)
      refine ⟨ds ++ [Nat.digitChar (n % 10)], by simp, ?_, ?_, ?_⟩
      · intro c hc
        rw [List.mem_append, List.mem_singleton] at hc
        rcases hc with hc | hc
        · exact hdig c hc
        · rw [hc]
          exact digitChar_isDigit _ (Nat.mod_lt _ (by norm_num))
      · rw [digitsValue_append, hval, digitValue_digitChar _ (Nat.mod_lt _ (by norm_num))]
        omega
      · intro acc
        simp [Nat.toDigitsCore, h0, hcore]

theorem toDigits_ne_nil (n : Nat) : Nat.toDigits 10 n ≠ [] := by
  obtain ⟨ds, hne, _, _, hcore⟩ := toDigitsCore_spec n (n + 1) (by omega)
  have := hcore []
  simp only [List.append_nil] at this
  rw [Nat.toDigits, this]
  exact hne

theorem toDigits_isDigit (n : Nat) : ∀ c ∈ Nat.toDigits 10 n, c.isDigit = true := by
  obtain ⟨ds, _, hdig, _, hcore⟩ := toDigitsCore_spec n (n + 1) (by omega)
  have := hcore []
  simp only [List.append_nil] at this
  rw [Nat.toDigits, this]
  exact hdig

theorem digitsValue_toDigits (n : Nat) : digitsValue (Nat.toDigits 10 n) = n := by
  obtain ⟨ds, _, _, hval, hcore⟩ := toDigitsCore_spec n (n + 1) (by omega)
  have := hcore []
  simp only [List.append_nil] at this
  rw [Nat.toDigits, this]
  exact hval

theorem decimal_natCast (n : Nat) : decimal (n : Int) = Nat.toDigits 10 n := by
  unfold decimal
  rw [if_neg (by omega), Int.natAbs_ofNat]

/-! ## `Split` and `Join` -/

theorem Split_ne_nil (s : GoString) (sep : Char) : Split s sep ≠ [] := by
  induction s with
  | nil => simp [Split]
  | cons c t ih =>
    unfold Split
    split
    · simp
    · split <;> simp

theorem Split_of_not_mem {s : GoString} {sep : Char} (h : sep ∉ s) : Split s sep = [s] := by
  induction s with
  | nil => rfl
  | cons c t ih =>
    have hc : c ≠ sep := fun e => h (by simp [e])
    have ht : sep ∉ t := fun e => h (List.mem_cons_of_mem _ e)
    simp [Split, hc, ih ht]

theorem Split_append {a : GoString} {sep : Char} (h : sep ∉ a) (b : GoString) :
    Split (a ++ sep :: b) sep = a :: Split b sep := by
  induction a with
  | nil => simp [Split]
  | cons c t ih =>
    have hc : c ≠ sep := fun e => h (by simp [e])
    have ht : sep ∉ t := fun e => h (List.mem_cons_of_mem _ e)
    simp [Split, hc, ih ht]

theorem length_Split (s : GoString) (sep : Char) :
    (Split s sep).length = s.count sep + 1 := by
  induction s with
  | nil => rfl
  | cons c t ih =>
    unfold Split
    by_cases hc : c = sep
    · subst hc
      simp [ih]
    · rw [if_neg hc]
      have hcount : List.count sep (c :: t) = List.count sep t := by
        simp [List.count_cons, hc]
      cases hsp : Split t sep with
      | nil => exact absurd hsp (Split_ne_nil t sep)
      | cons h r =>
        rw [hsp] at ih
        simp only [List.length_cons] at ih ⊢
        omega

theorem mem_of_mem_Split {s : GoString} {sep : Char} :
    ∀ {p : GoString}, p ∈ Split s sep → ∀ {c : Char}, c ∈ p → c ∈ s := by
  induction s with
  | nil =>
    intro p hp c hc
    simp only [Split, List.mem_singleton] at hp
    rw [hp] at hc
    exact hc
  | cons x t ih =>
    intro p hp c hc
    unfold Split at hp
    by_cases hx : x = sep
    · rw [if_pos hx] at hp
      rcases List.mem_cons.mp hp with e | hp2
      · rw [e] at hc
        exact absurd hc (List.not_mem_nil _)
      · exact List.mem_cons_of_mem _ (ih hp2 hc)
    · rw [if_neg hx] at hp
      cases hsp : Split t sep with
      | nil => exact absurd hsp (Split_ne_nil t sep)
      | cons h r =>
        rw [hsp] at hp ih
        rcases List.mem_cons.mp hp with e | hp2
        · rw [e] at hc
          rcases List.mem_cons.mp hc with e2 | hc2
          · rw [e2]; exact List.mem_cons_self _ _
          · exact List.mem_cons_of_mem _ (ih (List.mem_cons_self _ _) hc2)
        · exact List.mem_cons_of_mem _ (ih (List.mem_cons_of_mem _ hp2) hc)

/-! ## `Atoi` and `parseAmount` -/

theorem stripSign_of_isDigit {c : Char} (t : GoString) (hc : c.isDigit = true) :
    stripSign (c :: t) = c :: t := by
  have hminus : c ≠ '-' := by
    intro e; rw [e] at hc; exact absurd hc (by decide)
  have hplus : c ≠ '+' := by
    intro e; rw [e] at hc; exact absurd hc (by decide)
  unfold stripSign
  split
  · rename_i heq
    exact absurd (List.cons.inj heq).1 hminus
  · rename_i heq
    exact absurd (List.cons.inj heq).1 hplus
  · rfl

theorem mem_stripSign {s : GoString} {c : Char} (hs : c ∈ s) (hminus : c ≠ '-')
    (hplus : c ≠ '+') : c ∈ stripSign s := by
  unfold stripSign
  split
  · rcases List.mem_cons.mp hs with e | h
    · exact absurd e hminus
    · exact h
  · rcases List.mem_cons.mp hs with e | h
    · exact absurd e hplus
    · exact h
  · exact hs

theorem Atoi_of_digits {ds : GoString} (hne : ds ≠ []) (hdig : ∀ c ∈ ds, c.isDigit = true)
    (hmax : ((digitsValue ds : Nat) : Int) ≤ maxInt) :
    Atoi ds = some ((digitsValue ds : Nat) : Int) := by
  cases ds with
  | nil => exact absurd rfl hne
  | cons c t =>
    have hc : c.isDigit = true := hdig c (List.mem_cons_self _ _)
    have hminus : c ≠ '-' := by
      intro e; rw [e] at hc; exact absurd hc (by decide)
    have hall : (c :: t).all Char.isDigit = true := List.all_eq_true.mpr hdig
    have hmin : minInt ≤ ((digitsValue (c :: t) : Nat) : Int) := by
      rw [minInt_eq]; omega
    unfold Atoi
    rw [stripSign_of_isDigit t hc, if_neg (by simp [hall])]
    simp only [List.head?_cons, Option.some.injEq, hminus, if_false]
    rw [if_pos ⟨hmin, hmax⟩]

theorem Atoi_decimal {n : Int} (h0 : 0 ≤ n) (h1 : n ≤ maxInt) : Atoi (decimal n) = some n := by
  obtain ⟨k, rfl⟩ := Int.eq_ofNat_of_zero_le h0
  rw [decimal_natCast]
  have h := Atoi_of_digits (toDigits_ne_nil k) (toDigits_isDigit k)
    (by rw [digitsValue_toDigits]; exact h1)
  rw [digitsValue_toDigits] at h
  exact h

theorem Atoi_none_of_mem {s : GoString} {c : Char} (hc : c.isDigit = false) (hs : c ∈ s)
    (hminus : c ≠ '-') (hplus : c ≠ '+') : Atoi s = none := by
  have hall : (stripSign s).all Char.isDigit = false := by
    rw [List.all_eq_false]
    exact ⟨c, mem_stripSign hs hminus hplus, by simp [hc]⟩
  unfold Atoi
  rw [if_pos (Or.inr hall)]

theorem Atoi_range {s : GoString} {v : Int} (h : Atoi s = some v) :
    minInt ≤ v ∧ v ≤ maxInt := by
  unfold Atoi at h
  by_cases hb : stripSign s = [] ∨ (stripSign s).all Char.isDigit = false
  · rw [if_pos hb] at h
    exact absurd h (by simp)
  · rw [if_neg hb] at h
    simp only [Option.ite_none_right_eq_some, Option.some.injEq] at h
    obtain ⟨hr, e⟩ := h
    rw [← e]
    exact hr

theorem Atoi_nonneg {s : GoString} {v : Int} (h : Atoi s = some v) (hs : '-' ∉ s) : 0 ≤ v := by
  have hhead : s.head? ≠ some '-' := by
    intro e
    cases s with
    | nil => simp at e
    | cons c t =>
      simp only [List.head?_cons, Option.some.injEq] at e
      exact hs (by simp [e])
  unfold Atoi at h
  by_cases hb : stripSign s = [] ∨ (stripSign s).all Char.isDigit = false
  · rw [if_pos hb] at h
    exact absurd h (by simp)
  · rw [if_neg hb] at h
    simp only [if_neg hhead, Option.ite_none_right_eq_some, Option.some.injEq] at h
    obtain ⟨_, e⟩ := h
    rw [← e]
    exact Int.ofNat_nonneg _

theorem not_mem_toDigits {n : Nat} {c : Char} (hc : c.isDigit = false) :
    c ∉ Nat.toDigits 10 n := by
  intro h
  have := toDigits_isDigit n c h
  rw [hc] at this
  exact absurd this (by simp)

theorem parseAmount_of_not_mem {s : GoString} (h : '@' ∉ s) :
    parseAmount s = match Atoi s with
      | none => (64, 0, some ("strconv error: ".toList ++ s))
      | some i => (64, i, none) := by
  unfold parseAmount
  rw [Split_of_not_mem h]

theorem parseAmount_of_two {a b : GoString} (ha : '@' ∉ a) (hb : '@' ∉ b) (i2 i : Int)
    (h2 : Atoi b = some i2) (h1 : Atoi a = some i) :
    parseAmount (a ++ '@' :: b) = (i2, i, none) := by
  unfold parseAmount
  rw [Split_append ha, Split_of_not_mem hb]
  simp only [h2, h1]

/-! ## Rendering and decoding a breakdown -/

theorem Split_Join {sep : Char} : ∀ (terms : List GoString), terms ≠ [] →
    (∀ t ∈ terms, sep ∉ t) → Split (Join terms sep) sep = terms := by
  intro terms
  induction terms with
  | nil => intro h; exact absurd rfl h
  | cons a rest ih =>
    intro _ hsep
    cases rest with
    | nil =>
      simp only [Join]
      exact Split_of_not_mem (hsep a (List.mem_cons_self _ _))
    | cons b t =>
      simp only [Join]
      rw [Split_append (hsep a (List.mem_cons_self _ _)),
        ih (by simp) (fun x hx => hsep x (List.mem_cons_of_mem _ hx))]

theorem takeWhile_digits_append (n : Nat) (u : GoString) :
    (Nat.toDigits 10 n ++ u).takeWhile Char.isDigit
      = Nat.toDigits 10 n ++ u.takeWhile Char.isDigit :=
  List.takeWhile_append_of_pos (toDigits_isDigit n)

theorem dropWhile_digits_append (n : Nat) (u : GoString) :
    (Nat.toDigits 10 n ++ u).dropWhile Char.isDigit = u.dropWhile Char.isDigit :=
  List.dropWhile_append_of_pos (toDigits_isDigit n)

theorem not_mem_term {n : Nat} {u : GoString} {c : Char} (hc : c.isDigit = false)
    (hu : c ∉ u) : c ∉ Nat.toDigits 10 n ++ u := by
  intro h
  rcases List.mem_append.mp h with h | h
  · exact not_mem_toDigits hc h
  · exact hu h

theorem decodeTerm_LC (n : Nat) (s : Int) :
    decodeTerm (Nat.toDigits 10 n ++ "LC".toList) s = (n : Int) * 54 * s := by
  unfold decodeTerm
  rw [takeWhile_digits_append, dropWhile_digits_append]
  have e1 : "LC".toList.takeWhile Char.isDigit = [] := by decide
  have e2 : "LC".toList.dropWhile Char.isDigit = "LC".toList := by decide
  rw [e1, e2, List.append_nil, digitsValue_toDigits]
  simp

theorem decodeTerm_c (n : Nat) (s : Int) :
    decodeTerm (Nat.toDigits 10 n ++ "c".toList) s = (n : Int) * 27 * s := by
  unfold decodeTerm
  rw [takeWhile_digits_append, dropWhile_digits_append]
  have e1 : "c".toList.takeWhile Char.isDigit = [] := by decide
  have e2 : "c".toList.dropWhile Char.isDigit = "c".toList := by decide
  have e3 : "c".toList ≠ "LC".toList := by decide
  rw [e1, e2, List.append_nil, digitsValue_toDigits]
  simp [e3]

theorem decodeTerm_st (n : Nat) (s : Int) :
    decodeTerm (Nat.toDigits 10 n ++ "st".toList) s = (n : Int) * s := by
  unfold decodeTerm
  rw [takeWhile_digits_append, dropWhile_digits_append]
  have e1 : "st".toList.takeWhile Char.isDigit = [] := by decide
  have e2 : "st".toList.dropWhile Char.isDigit = "st".toList := by decide
  have e3 : "st".toList ≠ "LC".toList := by decide
  have e4 : "st".toList ≠ "c".toList := by decide
  rw [e1, e2, List.append_nil, digitsValue_toDigits]
  simp [e3, e4]

theorem decodeTerm_loose (n : Nat) (s : Int) :
    decodeTerm (Nat.toDigits 10 n) s = (n : Int) := by
  have h := takeWhile_digits_append n []
  have h2 := dropWhile_digits_append n []
  simp only [List.append_nil, List.takeWhile_nil, List.dropWhile_nil] at h h2
  unfold decodeTerm
  rw [h, h2, digitsValue_toDigits]
  have e3 : ([] : GoString) ≠ "LC".toList := by decide
  have e4 : ([] : GoString) ≠ "c".toList := by decide
  have e5 : ([] : GoString) ≠ "st".toList := by decide
  simp [e3, e4, e5]

theorem calcRender_natCast (lc sb st r : Nat) :
    calcRender ((lc : Int), (sb : Int), (st : Int), (r : Int)) = Join (termsOf lc sb st r) '+' := by
  unfold calcRender termsOf
  simp only [decimal_natCast, gt_iff_lt, Int.natCast_pos, List.nil_append]
  by_cases h1 : 0 < lc <;> by_cases h2 : 0 < sb <;> by_cases h3 : 0 < st <;>
    by_cases h4 : 0 < r <;> simp [h1, h2, h3, h4]

theorem not_plus_mem_termsOf (lc sb st r : Nat) : ∀ t ∈ termsOf lc sb st r, '+' ∉ t := by
  have hLC : '+' ∉ "LC".toList := by decide
  have hc : '+' ∉ "c".toList := by decide
  have hst : '+' ∉ "st".toList := by decide
  have hd : ('+' : Char).isDigit = false := by decide
  intro t ht
  unfold termsOf at ht
  simp only [List.mem_append] at ht
  rcases ht with ((ht | ht) | ht) | ht
  · split at ht
    · rw [List.mem_singleton.mp ht]; exact not_mem_term hd hLC
    · exact absurd ht (List.not_mem_nil _)
  · split at ht
    · rw [List.mem_singleton.mp ht]; exact not_mem_term hd hc
    · exact absurd ht (List.not_mem_nil _)
  · split at ht
    · rw [List.mem_singleton.mp ht]; exact not_mem_term hd hst
    · exact absurd ht (List.not_mem_nil _)
  · split at ht
    · rw [List.mem_singleton.mp ht]; exact not_mem_toDigits hd
    · exact absurd ht (List.not_mem_nil _)

theorem sum_decodeTerm_termsOf (lc sb st r : Nat) (s : Int) :
    ((termsOf lc sb st r).map (fun t => decodeTerm t s)).sum
      = (lc : Int) * 54 * s + (sb : Int) * 27 * s + (st : Int) * s + (r : Int) := by
  unfold termsOf
  simp only [List.map_append, List.sum_append]
  have a1 : ((if 0 < lc then [Nat.toDigits 10 lc ++ "LC".toList] else []).map
      (fun t => decodeTerm t s)).sum = (lc : Int) * 54 * s := by
    by_cases h : 0 < lc
    · rw [if_pos h, List.map_singleton, List.sum_singleton, decodeTerm_LC]
    · have : lc = 0 := by omega
      simp [this]
  have a2 : ((if 0 < sb then [Nat.toDigits 10 sb ++ "c".toList] else []).map
      (fun t => decodeTerm t s)).sum = (sb : Int) * 27 * s := by
    by_cases h : 0 < sb
    · rw [if_pos h, List.map_singleton, List.sum_singleton, decodeTerm_c]
    · have : sb = 0 := by omega
      simp [this]
  have a3 : ((if 0 < st then [Nat.toDigits 10 st ++ "st".toList] else []).map
      (fun t => decodeTerm t s)).sum = (st : Int) * s := by
    by_cases h : 0 < st
    · rw [if_pos h, List.map_singleton, List.sum_singleton, decodeTerm_st]
    · have : st = 0 := by omega
      simp [this]
  have a4 : ((if 0 < r then [Nat.toDigits 10 r] else []).map
      (fun t => decodeTerm t s)).sum = (r : Int) := by
    by_cases h : 0 < r
    · rw [if_pos h, List.map_singleton, List.sum_singleton, decodeTerm_loose]
    · have : r = 0 := by omega
      simp [this]
  rw [a1, a2, a3, a4]

theorem decode_nil (s : Int) : decode [] s = 0 := by
  simp [decode, Split, decodeTerm, digitsValue]

/-- Decoding a rendered breakdown gives back the item total of its four counts. -/
theorem decode_calcRender (lc sb st r : Nat) (s : Int) :
    decode (calcRender ((lc : Int), (sb : Int), (st : Int), (r : Int))) s
      = (lc : Int) * 54 * s + (sb : Int) * 27 * s + (st : Int) * s + (r : Int) := by
  rw [calcRender_natCast]
  by_cases hnil : termsOf lc sb st r = []
  · have hsum := sum_decodeTerm_termsOf lc sb st r s
    rw [hnil] at hsum ⊢
    simp only [List.map_nil, List.sum_nil] at hsum
    rw [← hsum]
    exact decode_nil s
  · unfold decode
    rw [Split_Join _ hnil (not_plus_mem_termsOf lc sb st r), sum_decodeTerm_termsOf]

theorem specConvert_natCast (a s : Nat) :
    specConvert (a : Int) (s : Int)
      = Join (termsOf (a / (54 * s)) (a % (54 * s) / (27 * s)) (a % (54 * s) % (27 * s) / s)
          (a % (54 * s) % (27 * s) % s)) '+' := by
  have h54 : (54 : Int) * (s : Int) = ((54 * s : Nat) : Int) := by push_cast; rfl
  have h27 : (27 : Int) * (s : Int) = ((27 * s : Nat) : Int) := by push_cast; rfl
  have hdiv : ∀ x y : Nat, (x : Int) / (y : Int) = ((x / y : Nat) : Int) :=
    fun x y => (Int.ofNat_ediv x y).symm
  have hmod : ∀ x y : Nat, (x : Int) % (y : Int) = ((x % y : Nat) : Int) :=
    fun x y => (Int.ofNat_emod x y).symm
  unfold specConvert termsOf
  simp only [h54, h27, hdiv, hmod, decimal_natCast]
  generalize a / (54 * s) = q1
  generalize a % (54 * s) % (27 * s) % s = r3
  generalize a % (54 * s) % (27 * s) / s = q3
  generalize a % (54 * s) / (27 * s) = q2
  by_cases h1 : q1 = 0 <;> by_cases h2 : q2 = 0 <;> by_cases h3 : q3 = 0 <;>
    by_cases h4 : r3 = 0 <;>
    simp [List.filter, h1, h2, h3, h4, Nat.pos_of_ne_zero, decimal_natCast]

/-- On the exact range `calc` returns the rendering of the mixed-radix decomposition. -/
theorem calcUnits_natCast {a s : Nat} (ha : a < 2 ^ 53) (hs : 0 < s)
    (hov : (54 * s : Int) ≤ maxInt) :
    calcUnits (a : Int) (s : Int) = some
      (calcRender (((a / (54 * s) : Nat) : Int), ((a % (54 * s) / (27 * s) : Nat) : Int),
        ((a % (54 * s) % (27 * s) / s : Nat) : Int),
        ((a % (54 * s) % (27 * s) % s : Nat) : Int))) := by
  unfold calcUnits
  rw [calcParts_natCast ha hs hov]
  rfl

theorem decode_calcUnits {a s : Nat} (ha : a < 2 ^ 53) (hs : 0 < s)
    (hov : (54 * s : Int) ≤ maxInt) :
    ∃ reply, calcUnits (a : Int) (s : Int) = some reply ∧ decode reply (s : Int) = (a : Int) := by
  refine ⟨_, calcUnits_natCast ha hs hov, ?_⟩
  rw [decode_calcRender]
  have e1 := Nat.div_add_mod a (54 * s)
  have e2 := Nat.div_add_mod (a % (54 * s)) (27 * s)
  have e3 := Nat.div_add_mod (a % (54 * s) % (27 * s)) s
  have key : a / (54 * s) * 54 * s + a % (54 * s) / (27 * s) * 27 * s
      + a % (54 * s) % (27 * s) / s * s + a % (54 * s) % (27 * s) % s = a := by
    generalize a / (54 * s) = q1 at *
    generalize a % (54 * s) = r1 at *
    generalize r1 / (27 * s) = q2 at *
    generalize r1 % (27 * s) = r2 at *
    generalize r2 / s = q3 at *
    generalize r2 % s = r3 at *
    nlinarith [e1, e2, e3]
  exact_mod_cast key

/-! ## Zero item count, for every stack size -/

theorem wrapInt_54_ne_zero {s : Int} (h0 : 0 < s) (h1 : s ≤ maxInt) : wrapInt (54 * s) ≠ 0 := by
  intro hw
  rw [wrapInt_eq] at hw
  rw [maxInt_eq] at h1
  have hm : (54 * s + 9223372036854775808) % 18446744073709551616
      = 9223372036854775808 % 18446744073709551616 := by
    have e : (9223372036854775808 : Int) % 18446744073709551616 = 9223372036854775808 := by
      norm_num
    rw [e]
    linarith
  rw [Int.emod_eq_emod_iff_emod_sub_eq_zero] at hm
  have hd : (18446744073709551616 : Int) ∣ 54 * s := by
    have := Int.dvd_of_emod_eq_zero hm
    simpa using this
  obtain ⟨k, hk⟩ := hd
  have hd2 : (9223372036854775808 : Int) ∣ 27 * s := ⟨k, by linarith⟩
  have hd3 : (9223372036854775808 : Int) ∣ s :=
    Int.dvd_of_dvd_mul_right_of_gcd_one hd2 (by norm_num)
  have := Int.le_of_dvd h0 hd3
  linarith

theorem wrapInt_27_ne_zero {s : Int} (h0 : 0 < s) (h1 : s ≤ maxInt) : wrapInt (27 * s) ≠ 0 := by
  intro hw
  rw [wrapInt_eq] at hw
  rw [maxInt_eq] at h1
  have hm : (27 * s + 9223372036854775808) % 18446744073709551616
      = 9223372036854775808 % 18446744073709551616 := by
    have e : (9223372036854775808 : Int) % 18446744073709551616 = 9223372036854775808 := by
      norm_num
    rw [e]
    linarith
  rw [Int.emod_eq_emod_iff_emod_sub_eq_zero] at hm
  have hd : (18446744073709551616 : Int) ∣ 27 * s := by
    have := Int.dvd_of_emod_eq_zero hm
    simpa using this
  have hd3 : (18446744073709551616 : Int) ∣ s :=
    Int.dvd_of_dvd_mul_right_of_gcd_one hd (by norm_num)
  have := Int.le_of_dvd h0 hd3
  linarith

theorem float64OfInt_ne_zero {z : Int} (h : z ≠ 0) : float64OfInt z ≠ 0 := by
  have hpos : 0 < roundNat z.natAbs := roundNat_pos (Int.natAbs_pos.mpr h)
  unfold float64OfInt
  split <;> omega

theorem goDiv_zero {d : Int} (h : d ≠ 0) : goDiv 0 d = some 0 := by
  unfold goDiv
  rw [if_neg h, Int.zero_tdiv]
  rfl

theorem mod_zero {d : Int} (h : d ≠ 0) : mod 0 d = some 0 := by
  unfold mod mathMod
  rw [if_neg (float64OfInt_ne_zero h)]
  have e : float64OfInt 0 = 0 := by decide
  rw [e, Int.zero_tmod]
  rfl

theorem calcUnits_zero {s : Int} (h0 : 0 < s) (h1 : s ≤ maxInt) : calcUnits 0 s = some [] := by
  have hs : s ≠ 0 := by omega
  unfold calcUnits calcParts
  rw [goDiv_zero (wrapInt_54_ne_zero h0 h1), mod_zero (wrapInt_54_ne_zero h0 h1)]
  simp only [Option.bind_eq_bind, Option.some_bind]
  rw [goDiv_zero (wrapInt_27_ne_zero h0 h1), mod_zero (wrapInt_27_ne_zero h0 h1)]
  simp only [Option.some_bind]
  rw [goDiv_zero hs, mod_zero hs]
  rfl

/-! ## Values that a `float64` holds exactly -/

theorem excessBits_le_of_lt {m k : Nat} (h : m < 2 ^ (53 + k)) : excessBits m ≤ k := by
  by_contra hgt
  have hne : excessBits m ≠ 0 := by omega
  have h1 := excessBits_le m hne
  have h2 : (2 : Nat) ^ (53 + k) ≤ 2 ^ (52 + excessBits m) :=
    Nat.pow_le_pow_right (by norm_num) (by omega)
  omega

theorem excessBits_mono {a b : Nat} (h : a ≤ b) : excessBits a ≤ excessBits b :=
  excessBits_le_of_lt (lt_of_le_of_lt h (excessBits_lt b))

theorem roundNat_eq_or (n : Nat) :
    roundNat n = n / 2 ^ excessBits n * 2 ^ excessBits n ∨
      roundNat n = (n / 2 ^ excessBits n + 1) * 2 ^ excessBits n := by
  unfold roundNat
  simp only
  split
  · exact Or.inr rfl
  · exact Or.inl rfl

theorem roundNat_of_dvd {n : Nat} (h : 2 ^ excessBits n ∣ n) : roundNat n = n := by
  have hpos : 0 < 2 ^ excessBits n := Nat.pos_pow_of_pos _ (by norm_num)
  have hmod : n % 2 ^ excessBits n = 0 := Nat.mod_eq_zero_of_dvd h
  unfold roundNat
  simp only [hmod, Nat.mul_zero]
  rw [if_neg (by omega)]
  exact Nat.div_mul_cancel h

/-- The conversion to `float64` gives a value that a `float64` holds exactly. -/
theorem representable_roundNat (n : Nat) : Representable (roundNat n) := by
  unfold Representable
  have hpos : 0 < 2 ^ excessBits n := Nat.pos_pow_of_pos _ (by norm_num)
  have hq : n / 2 ^ excessBits n < 2 ^ 53 := by
    rw [Nat.div_lt_iff_lt_mul hpos, ← Nat.pow_add]
    exact excessBits_lt n
  have hpow : (2 : Nat) ^ (53 + excessBits n) = 2 ^ 53 * 2 ^ excessBits n := Nat.pow_add _ _ _
  have hdvd : 2 ^ excessBits n ∣ roundNat n := by
    rcases roundNat_eq_or n with e | e <;> rw [e] <;> exact Nat.dvd_mul_left _ _
  by_cases hlt : roundNat n < 2 ^ (53 + excessBits n)
  · exact Nat.dvd_trans (Nat.pow_dvd_pow 2 (excessBits_le_of_lt hlt)) hdvd
  · have heq : roundNat n = 2 ^ (53 + excessBits n) := by
      rcases roundNat_eq_or n with e | e
      · rw [e] at hlt ⊢
        have := Nat.mul_lt_mul_of_pos_right hq hpos
        omega
      · rw [e] at hlt ⊢
        have h1 : (n / 2 ^ excessBits n + 1) * 2 ^ excessBits n ≤ 2 ^ 53 * 2 ^ excessBits n :=
          Nat.mul_le_mul_right _ hq
        omega
    have hle : excessBits (roundNat n) ≤ 53 + excessBits n := by
      apply excessBits_le_of_lt
      rw [heq]
      exact Nat.pow_lt_pow_right (by norm_num) (by omega)
    rw [heq] at hle ⊢
    exact Nat.pow_dvd_pow 2 hle

/-- Rounding goes to a nearest value: no exactly held value lies between a number and the
result of rounding it up. -/
theorem roundNat_le_of_representable {y r : Nat} (hr : Representable r) (h : y ≤ r) :
    roundNat y ≤ r := by
  have hpos : 0 < 2 ^ excessBits y := Nat.pos_pow_of_pos _ (by norm_num)
  have hdvd : 2 ^ excessBits y ∣ r :=
    Nat.dvd_trans (Nat.pow_dvd_pow 2 (excessBits_mono h)) hr
  by_cases hy : 2 ^ excessBits y ∣ y
  · rw [roundNat_of_dvd hy]
    exact h
  · obtain ⟨k, hk⟩ := hdvd
    have hdm := Nat.div_add_mod y (2 ^ excessBits y)
    have hmpos : 0 < y % 2 ^ excessBits y := by
      rcases Nat.eq_zero_or_pos (y % 2 ^ excessBits y) with h0 | h0
      · exact absurd (Nat.dvd_of_mod_eq_zero h0) hy
      · exact h0
    have hqk : y / 2 ^ excessBits y < k := by
      by_contra hge
      have : k * 2 ^ excessBits y ≤ y / 2 ^ excessBits y * 2 ^ excessBits y :=
        Nat.mul_le_mul_right _ (Nat.le_of_not_lt hge)
      rw [Nat.mul_comm] at hdm
      rw [Nat.mul_comm] at hk
      omega
    have hup : (y / 2 ^ excessBits y + 1) * 2 ^ excessBits y ≤ k * 2 ^ excessBits y :=
      Nat.mul_le_mul_right _ hqk
    have hle : roundNat y ≤ (y / 2 ^ excessBits y + 1) * 2 ^ excessBits y := by
      rcases roundNat_eq_or y with e | e <;> rw [e]
      exact Nat.mul_le_mul_right _ (Nat.le_succ _)
    rw [Nat.mul_comm] at hk
    omega

/-- The remainder of two exactly held values is held exactly (`math.Mod` does not round). -/
theorem representable_mod {a b : Nat} (ha : Representable a) (hb : Representable b)
    (hpos : 0 < b) : Representable (a % b) := by
  unfold Representable at *
  by_cases hlt : a < b
  · rw [Nat.mod_eq_of_lt hlt]
    exact ha
  · have hba : b ≤ a := Nat.le_of_not_lt hlt
    have h1 : 2 ^ excessBits b ∣ a := Nat.dvd_trans (Nat.pow_dvd_pow 2 (excessBits_mono hba)) ha
    have h2 : 2 ^ excessBits b ∣ a % b := (Nat.dvd_mod_iff hb).mpr h1
    have h3 : a % b ≤ b := Nat.le_of_lt (Nat.mod_lt _ hpos)
    exact Nat.dvd_trans (Nat.pow_dvd_pow 2 (excessBits_mono h3)) h2

/-- The remainder that `mod` computes from the rounded operands stays below the divisor
itself, and a `float64` holds it exactly. -/
theorem roundNat_mod_lt (x : Nat) {y : Nat} (hy : 0 < y) :
    roundNat x % roundNat y < y ∧ Representable (roundNat x % roundNat y) := by
  have hry := roundNat_pos hy
  have hrep : Representable (roundNat x % roundNat y) :=
    representable_mod (representable_roundNat x) (representable_roundNat y) hry
  refine ⟨?_, hrep⟩
  by_contra hge
  have := roundNat_le_of_representable hrep (Nat.le_of_not_lt hge)
  have := Nat.mod_lt (roundNat x) hry
  omega

theorem mod_natCast {x y : Nat} (hy : 0 < y) (hy2 : (y : Int) ≤ maxInt) :
    mod (x : Int) (y : Int) = some ((roundNat x % roundNat y : Nat) : Int) := by
  have hr := roundNat_pos hy
  have hlt := (roundNat_mod_lt x hy).1
  unfold mod mathMod
  rw [float64OfInt_natCast, float64OfInt_natCast, if_neg (by omega), ← Int.ofNat_tmod]
  simp only [Option.some_bind, intOfFloat64]
  rw [maxInt_eq] at hy2 ⊢
  rw [minInt_eq]
  rw [if_pos (by omega)]

/-- Without overflow `calcParts` returns: its counts are quotients of the remainders that
`mod` computes from the rounded operands. -/
theorem calcParts_natCast_rounded {a s : Nat} (ha : (a : Int) ≤ maxInt) (hs : 0 < s)
    (hov : (54 * s : Int) ≤ maxInt) :
    calcParts (a : Int) (s : Int) = some
      (((a / (54 * s) : Nat) : Int),
       ((roundNat a % roundNat (54 * s) / (27 * s) : Nat) : Int),
       ((roundNat (roundNat a % roundNat (54 * s)) % roundNat (27 * s) / s : Nat) : Int),
       ((roundNat (roundNat (roundNat a % roundNat (54 * s)) % roundNat (27 * s)) % roundNat s
          : Nat) : Int)) := by
  have hmax := maxInt_eq
  have hmin := minInt_eq
  have w54 : wrapInt (54 * (s : Int)) = ((54 * s : Nat) : Int) := by
    rw [wrapInt_of_range (by omega) hov]; push_cast; rfl
  have w27 : wrapInt (27 * (s : Int)) = ((27 * s : Nat) : Int) := by
    rw [wrapInt_of_range (by omega) (by omega)]; push_cast; rfl
  have h1 := (roundNat_mod_lt a (y := 54 * s) (by omega)).1
  have h2 := (roundNat_mod_lt (roundNat a % roundNat (54 * s)) (y := 27 * s) (by omega)).1
  unfold calcParts
  rw [w54, w27, goDiv_natCast (by omega) ha, mod_natCast (by omega) (by push_cast; omega)]
  simp only [Option.bind_eq_bind, Option.some_bind]
  rw [goDiv_natCast (by omega) (by omega), mod_natCast (by omega) (by push_cast; omega)]
  simp only [Option.some_bind]
  rw [goDiv_natCast (by omega) (by omega), mod_natCast (by omega) (by omega)]
  rfl

/-! ## The parser: claims C3, C5, C6 and the dispatch: claim C4 -/

/-- C3, as stated, fails: `parseAmount` hands both sides to `strconv.Atoi`, which accepts a
sign. The input `-5` parses without error to the item count `-5`, and `1@-3` parses without
error to the stack size `-3`. -/
theorem parseAmount_accepts_negative :
    ((parseAmount "-5".toList).2.2 = none ∧
      ¬ (0 < (parseAmount "-5".toList).1 ∧ 0 ≤ (parseAmount "-5".toList).2.1)) ∧
    ((parseAmount "1@-3".toList).2.2 = none ∧
      ¬ (0 < (parseAmount "1@-3".toList).1 ∧ 0 ≤ (parseAmount "1@-3".toList).2.1)) := by
  decide

/-- C3 (amended): for every input string that holds no `-`, if `parseAmount` returns no error
and the returned stack size is not 0, then the returned stack size is `> 0` and the returned
item count is `≥ 0`. -/
theorem parseAmount_success (s : GoString) (size amount : Int)
    (h : parseAmount s = (size, amount, none)) (hminus : '-' ∉ s) (hsize : size ≠ 0) :
    0 < size ∧ 0 ≤ amount := by
  have key : 0 ≤ size ∧ 0 ≤ amount := by
    unfold parseAmount at h
    split at h
    · rename_i sp0 sp1 hsp
      have hm0 : ∀ c, c ∈ sp0 → c ∈ s := fun c hc =>
        mem_of_mem_Split (show sp0 ∈ Split s '@' by rw [hsp]; simp) hc
      have hm1 : ∀ c, c ∈ sp1 → c ∈ s := fun c hc =>
        mem_of_mem_Split (show sp1 ∈ Split s '@' by rw [hsp]; simp) hc
      cases h2 : Atoi sp1 with
      | none => simp [h2] at h
      | some i2 =>
        cases h1 : Atoi sp0 with
        | none => simp [h2, h1] at h
        | some i =>
          simp only [h2, h1, Prod.mk.injEq, and_true] at h
          obtain ⟨e2, e1⟩ := h
          subst e2 e1
          exact ⟨Atoi_nonneg h2 (fun hc => hminus (hm1 _ hc)),
            Atoi_nonneg h1 (fun hc => hminus (hm0 _ hc))⟩
    · cases h1 : Atoi s with
      | none => simp [h1] at h
      | some i =>
        simp only [h1, Prod.mk.injEq, and_true] at h
        obtain ⟨e2, e1⟩ := h
        subst e2 e1
        exact ⟨by norm_num, Atoi_nonneg h1 hminus⟩
  exact ⟨lt_of_le_of_ne key.1 (Ne.symm hsize), key.2⟩

/-- Witness for C3 (amended), at the input `1234@32`. -/
theorem parseAmount_success_witness :
    parseAmount "1234@32".toList = (32, 1234, none) ∧ '-' ∉ "1234@32".toList ∧
      (32 : Int) ≠ 0 ∧ ((0 : Int) < 32 ∧ (0 : Int) ≤ 1234) :=
  ⟨by decide, by decide, by decide,
    parseAmount_success "1234@32".toList 32 1234 (by decide) (by decide) (by decide)⟩

/-- C5: `parseAmount` inverts decimal formatting. For a non-negative `n` and a positive `k`
of the Go `int` range, the decimal text of `n` parses to stack size 64 and item count `n`,
and the decimal text of `n`, an `@` and the decimal text of `k` parse to stack size `k` and
item count `n`, both without error. -/
theorem parseAmount_decimal (n k : Int) (hn0 : 0 ≤ n) (hn1 : n ≤ maxInt) (hk0 : 0 < k)
    (hk1 : k ≤ maxInt) :
    parseAmount (decimal n) = (64, n, none) ∧
      parseAmount (decimal n ++ "@".toList ++ decimal k) = (k, n, none) := by
  have han : '@' ∉ decimal n := by
    obtain ⟨a, rfl⟩ := Int.eq_ofNat_of_zero_le hn0
    rw [decimal_natCast]
    exact not_mem_toDigits (by decide)
  have hak : '@' ∉ decimal k := by
    obtain ⟨a, rfl⟩ := Int.eq_ofNat_of_zero_le (le_of_lt hk0)
    rw [decimal_natCast]
    exact not_mem_toDigits (by decide)
  constructor
  · rw [parseAmount_of_not_mem han, Atoi_decimal hn0 hn1]
  · have e : decimal n ++ "@".toList ++ decimal k = decimal n ++ '@' :: decimal k := by
      simp
    rw [e]
    exact parseAmount_of_two han hak k n (Atoi_decimal (le_of_lt hk0) hk1) (Atoi_decimal hn0 hn1)

/-- Witness for C5: the texts `35000` and `1234@32` of the source comment. -/
theorem parseAmount_decimal_witness :
    parseAmount "35000".toList = (64, 35000, none) ∧
      parseAmount "1234@32".toList = (32, 1234, none) :=
  ⟨(parseAmount_decimal 35000 64 (by decide) (by decide) (by decide) (by decide)).1,
   (parseAmount_decimal 1234 32 (by decide) (by decide) (by decide) (by decide)).2⟩

/-- C6: an input with two or more `@` is rejected, whatever stands between the separators. -/
theorem parseAmount_rejects_two_separators (s : GoString) (h : 2 ≤ s.count '@') :
    (parseAmount s).2.2 ≠ none := by
  have hlen := length_Split s '@'
  have hat : '@' ∈ s := List.count_pos_iff.mp (by omega)
  have hnone : Atoi s = none := Atoi_none_of_mem (by decide) hat (by decide) (by decide)
  unfold parseAmount
  split
  · rename_i sp0 sp1 hsp
    rw [hsp] at hlen
    simp only [List.length_cons, List.length_nil] at hlen
    omega
  · rw [hnone]
    simp

/-- Witness for C6, at the input `1@2@3`. -/
theorem parseAmount_rejects_two_separators_witness :
    2 ≤ "1@2@3".toList.count '@' ∧ (parseAmount "1@2@3".toList).2.2 ≠ none :=
  ⟨by decide, parseAmount_rejects_two_separators "1@2@3".toList (by decide)⟩

/-- C4 fails on the code: the message `1@0?=` parses without error to stack size 0 and item
count 1, and `calc(1, 0)` divides by `54 * 0`, a run-time panic instead of a reply. -/
theorem onMessage_panics_on_zero_stack_size :
    parseAmount "1@0".toList = (0, 1, none) ∧ calcUnits 1 0 = none ∧
      onMessage false "1@0?=".toList = Outcome.panicked := by
  decide

/-! ## The helper `mod`: claim C9 -/

/-- C9 fails on the code: in `calc(9007199254740993, 64)` the helper is called as
`mod(9007199254740993, 3456)` and returns 3200, while the integer remainder is 3201; the
conversion to `float64` has rounded `2 ^ 53 + 1` to `2 ^ 53`. -/
theorem mod_loses_precision :
    (0 : Int) ≤ 9007199254740993 ∧ (9007199254740993 : Int) ≤ maxInt ∧
      float64OfInt 9007199254740993 = 9007199254740992 ∧
      mod 9007199254740993 3456 = some 3200 ∧ (9007199254740993 : Int) % 3456 = 3201 := by
  decide

/-! ## The converter: claims C1, C2, C7, C8, C10 -/

/-- C1, as stated, fails: for item count `2 ^ 62` and stack size `2 ^ 62` the products
`54 * size` and `27 * size` wrap around, `calc` computes the counts `(0, -1, 0, 0)`, and they
add up to `-27 * 2 ^ 62`, not to the item count. -/
theorem calcParts_not_conserved_on_overflow :
    (0 : Int) ≤ 2 ^ 62 ∧ (0 : Int) < 2 ^ 62 ∧ (2 : Int) ^ 62 ≤ maxInt ∧
      calcParts (2 ^ 62) (2 ^ 62) = some (0, -1, 0, 0) ∧
      (0 : Int) * 54 * 2 ^ 62 + (-1) * 27 * 2 ^ 62 + 0 * 2 ^ 62 + 0 ≠ 2 ^ 62 := by
  decide

/-- C1 (amended): conservation law of `calc`. For an item count with
`0 ≤ itemCount < 2 ^ 53` and a positive stack size with `54 * stackSize` inside the Go `int`
range, `calc` computes four values `lc`, `sb`, `st` and a loose remainder with
`lc*54*stackSize + sb*27*stackSize + st*stackSize + remainder = itemCount`. -/
theorem calcParts_conservation (itemCount stackSize : Int) (h0 : 0 ≤ itemCount)
    (h1 : itemCount < 2 ^ 53) (hs : 0 < stackSize) (hov : 54 * stackSize ≤ maxInt) :
    ∃ lc sb st r : Int, calcParts itemCount stackSize = some (lc, sb, st, r) ∧
      lc * 54 * stackSize + sb * 27 * stackSize + st * stackSize + r = itemCount := by
  obtain ⟨a, rfl⟩ := Int.eq_ofNat_of_zero_le h0
  obtain ⟨s, rfl⟩ := Int.eq_ofNat_of_zero_le (le_of_lt hs)
  have ha : a < 2 ^ 53 := by exact_mod_cast h1
  have hs2 : 0 < s := by exact_mod_cast hs
  refine ⟨_, _, _, _, calcParts_natCast ha hs2 hov, ?_⟩
  have e1 := Nat.div_add_mod a (54 * s)
  have e2 := Nat.div_add_mod (a % (54 * s)) (27 * s)
  have e3 := Nat.div_add_mod (a % (54 * s) % (27 * s)) s
  have key : a / (54 * s) * 54 * s + a % (54 * s) / (27 * s) * 27 * s
      + a % (54 * s) % (27 * s) / s * s + a % (54 * s) % (27 * s) % s = a := by
    generalize a / (54 * s) = q1 at *
    generalize a % (54 * s) = r1 at *
    generalize r1 / (27 * s) = q2 at *
    generalize r1 % (27 * s) = r2 at *
    generalize r2 / s = q3 at *
    generalize r2 % s = r3 at *
    nlinarith [e1, e2, e3]
  exact_mod_cast key

/-- Witness for C1 (amended), at `calc(35000, 64)`. -/
theorem calcParts_conservation_witness :
    ∃ lc sb st r : Int, calcParts 35000 64 = some (lc, sb, st, r) ∧
      lc * 54 * 64 + sb * 27 * 64 + st * 64 + r = 35000 :=
  calcParts_conservation 35000 64 (by decide) (by decide) (by decide) (by decide)

/-- C2, as stated, fails on its own witness: `calc(35000, 64)` is `10LC+6st+56`
(35000 = 10*3456 + 440 and 440 = 6*64 + 56), not `10LC+1c+3st+20`. It also fails where
`54 * stackSize` wraps around: for item count and stack size `2 ^ 62` the code returns the
empty string, the decomposition of the claim gives `1st`. -/
theorem calcUnits_differs_from_stated_format :
    (calcUnits 35000 64 = some "10LC+6st+56".toList ∧
      calcUnits 35000 64 ≠ some "10LC+1c+3st+20".toList) ∧
    (calcUnits (2 ^ 62) (2 ^ 62) = some [] ∧ specConvert (2 ^ 62) (2 ^ 62) = "1st".toList) := by
  decide

/-- C2 (amended): output format of `calc`. For `0 ≤ itemCount < 2 ^ 53` and a positive stack
size with `54 * stackSize` inside the Go `int` range, `calc(itemCount, stackSize)` is exactly
the `+`-join of the terms with a nonzero count, in the order large crate, crate, stack,
loose, each the decimal count followed by `LC`, `c`, `st` or nothing, the counts being those
of the decomposition by integer division and remainder. -/
theorem calcUnits_eq_specConvert (itemCount stackSize : Int) (h0 : 0 ≤ itemCount)
    (h1 : itemCount < 2 ^ 53) (hs : 0 < stackSize) (hov : 54 * stackSize ≤ maxInt) :
    calcUnits itemCount stackSize = some (specConvert itemCount stackSize) := by
  obtain ⟨a, rfl⟩ := Int.eq_ofNat_of_zero_le h0
  obtain ⟨s, rfl⟩ := Int.eq_ofNat_of_zero_le (le_of_lt hs)
  have ha : a < 2 ^ 53 := by exact_mod_cast h1
  have hs2 : 0 < s := by exact_mod_cast hs
  rw [calcUnits_natCast ha hs2 hov, calcRender_natCast, specConvert_natCast]

/-- Witness for C2 (amended): `calc(35000, 64)` is `10LC+6st+56`. -/
theorem calcUnits_eq_specConvert_witness :
    calcUnits 35000 64 = some (specConvert 35000 64) ∧
      specConvert 35000 64 = "10LC+6st+56".toList :=
  ⟨calcUnits_eq_specConvert 35000 64 (by decide) (by decide) (by decide) (by decide),
   by decide⟩

/-- C7, as stated, fails: with the stack size `2 ^ 62`, whose multiples by 54 and 27 wrap
around, the item counts `0` and `2 ^ 62` get the same (empty) reply. -/
theorem calcUnits_not_injective_on_overflow :
    (0 : Int) < 2 ^ 62 ∧ (2 : Int) ^ 62 ≤ maxInt ∧
      calcUnits 0 (2 ^ 62) = calcUnits (2 ^ 62) (2 ^ 62) ∧ (0 : Int) ≠ 2 ^ 62 := by
  decide

/-- C7 (amended): `calc` is invertible for a fixed stack size. For a positive stack size with
`54 * stackSize` inside the Go `int` range, `decode` recovers every item count `a` with
`0 ≤ a < 2 ^ 53` from the reply `calc(a, stackSize)`, and two such item counts with the same
reply are equal. -/
theorem calcUnits_invertible (stackSize : Int) (hs : 0 < stackSize)
    (hov : 54 * stackSize ≤ maxInt) :
    (∀ a : Int, 0 ≤ a → a < 2 ^ 53 →
        ∃ reply, calcUnits a stackSize = some reply ∧ decode reply stackSize = a) ∧
      (∀ a b : Int, 0 ≤ a → a < 2 ^ 53 → 0 ≤ b → b < 2 ^ 53 →
        calcUnits a stackSize = calcUnits b stackSize → a = b) := by
  obtain ⟨s, rfl⟩ := Int.eq_ofNat_of_zero_le (le_of_lt hs)
  have hs2 : 0 < s := by exact_mod_cast hs
  have hdec : ∀ a : Int, 0 ≤ a → a < 2 ^ 53 →
      ∃ reply, calcUnits a (s : Int) = some reply ∧ decode reply (s : Int) = a := by
    intro a ha0 ha1
    obtain ⟨n, rfl⟩ := Int.eq_ofNat_of_zero_le ha0
    exact decode_calcUnits (by exact_mod_cast ha1) hs2 hov
  refine ⟨hdec, ?_⟩
  intro a b ha0 ha1 hb0 hb1 hab
  obtain ⟨ra, hra, hda⟩ := hdec a ha0 ha1
  obtain ⟨rb, hrb, hdb⟩ := hdec b hb0 hb1
  rw [hra, hrb] at hab
  rw [← hda, ← hdb, Option.some.inj hab]

/-- Witness for C7 (amended), at the default stack size 64. -/
theorem calcUnits_invertible_witness :
    (∀ a : Int, 0 ≤ a → a < 2 ^ 53 →
        ∃ reply, calcUnits a 64 = some reply ∧ decode reply 64 = a) ∧
      (∀ a b : Int, 0 ≤ a → a < 2 ^ 53 → 0 ≤ b → b < 2 ^ 53 →
        calcUnits a 64 = calcUnits b 64 → a = b) :=
  calcUnits_invertible 64 (by decide) (by decide)

/-- C8, as stated, fails: for the positive item count `2 ^ 62` and the stack size `2 ^ 62`,
whose multiples by 54 and 27 wrap around, the reply is the empty string. -/
theorem calcUnits_empty_for_positive_count_on_overflow :
    (0 : Int) < 2 ^ 62 ∧ (2 : Int) ^ 62 ≤ maxInt ∧ (2 : Int) ^ 62 ≠ 0 ∧
      calcUnits (2 ^ 62) (2 ^ 62) = some [] := by
  decide

/-- C8 (amended): zero edge case of `calc`. For every positive stack size of the Go `int`
range `calc(0, stackSize)` is the empty string; and for `0 ≤ itemCount < 2 ^ 53` and
`54 * stackSize` inside the `int` range the reply is empty exactly when the item count is 0. -/
theorem calcUnits_empty_iff (itemCount stackSize : Int) (hs : 0 < stackSize)
    (hmax : stackSize ≤ maxInt) :
    calcUnits 0 stackSize = some [] ∧
      (0 ≤ itemCount → itemCount < 2 ^ 53 → 54 * stackSize ≤ maxInt →
        (calcUnits itemCount stackSize = some [] ↔ itemCount = 0)) := by
  refine ⟨calcUnits_zero hs hmax, fun h0 h1 hov => ⟨fun hnil => ?_, fun hz => ?_⟩⟩
  · obtain ⟨a, rfl⟩ := Int.eq_ofNat_of_zero_le h0
    obtain ⟨s, rfl⟩ := Int.eq_ofNat_of_zero_le (le_of_lt hs)
    obtain ⟨reply, hr, hd⟩ :=
      decode_calcUnits (a := a) (s := s) (by exact_mod_cast h1) (by exact_mod_cast hs) hov
    rw [hr] at hnil
    rw [← hd, Option.some.inj hnil]
    exact decode_nil _
  · rw [hz]
    exact calcUnits_zero hs hmax

/-- Witness for C8 (amended): `calc(0, 64)` is empty and `calc(35000, 64)` is not. -/
theorem calcUnits_empty_iff_witness :
    calcUnits 0 64 = some [] ∧
      ((0 : Int) ≤ 35000 → (35000 : Int) < 2 ^ 53 → (54 : Int) * 64 ≤ maxInt →
        (calcUnits 35000 64 = some [] ↔ (35000 : Int) = 0)) :=
  calcUnits_empty_iff 35000 64 (by decide) (by decide)

/-- C10, as stated, fails: for item count and stack size `2 ^ 62` the product `27 * size`
wraps around to `-(2 ^ 62)` and the crate count that `calc` computes is `-1`, neither 0
nor 1. -/
theorem calcParts_crate_count_negative_on_overflow :
    (0 : Int) ≤ 2 ^ 62 ∧ (0 : Int) < 2 ^ 62 ∧ (2 : Int) ^ 62 ≤ maxInt ∧
      wrapInt (27 * 2 ^ 62) = -(2 ^ 62) ∧
      calcParts (2 ^ 62) (2 ^ 62) = some (0, -1, 0, 0) ∧ ¬ ((-1 : Int) = 0 ∨ (-1 : Int) = 1) := by
  decide

/-- C10 (amended): canonical mixed-radix form. For every non-negative item count of the Go
`int` range and every positive stack size with `54 * stackSize` inside that range, `calc`
computes a large-crate count `lc ≥ 0`, a crate count `sb` that is 0 or 1, a stack count with
`0 ≤ st ≤ 26` and a loose remainder with `0 ≤ remainder < stackSize`. -/
theorem calcParts_canonical (itemCount stackSize : Int) (h0 : 0 ≤ itemCount)
    (h1 : itemCount ≤ maxInt) (hs : 0 < stackSize) (hov : 54 * stackSize ≤ maxInt) :
    ∃ lc sb st r : Int, calcParts itemCount stackSize = some (lc, sb, st, r) ∧
      0 ≤ lc ∧ (sb = 0 ∨ sb = 1) ∧ (0 ≤ st ∧ st ≤ 26) ∧ (0 ≤ r ∧ r < stackSize) := by
  obtain ⟨a, rfl⟩ := Int.eq_ofNat_of_zero_le h0
  obtain ⟨s, rfl⟩ := Int.eq_ofNat_of_zero_le (le_of_lt hs)
  have hs2 : 0 < s := by exact_mod_cast hs
  refine ⟨_, _, _, _, calcParts_natCast_rounded h1 hs2 hov, ?_⟩
  have b1 := (roundNat_mod_lt a (y := 54 * s) (by omega)).1
  have b2 := (roundNat_mod_lt (roundNat a % roundNat (54 * s)) (y := 27 * s) (by omega)).1
  have b3 := (roundNat_mod_lt
    (roundNat (roundNat a % roundNat (54 * s)) % roundNat (27 * s)) hs2).1
  generalize roundNat (roundNat (roundNat a % roundNat (54 * s)) % roundNat (27 * s))
    % roundNat s = r3 at b3 ⊢
  generalize roundNat (roundNat a % roundNat (54 * s)) % roundNat (27 * s) = r2 at b2 ⊢
  generalize roundNat a % roundNat (54 * s) = r1 at b1 ⊢
  have hsb : r1 / (27 * s) < 2 := by
    rw [Nat.div_lt_iff_lt_mul (by omega)]
    omega
  have hst : r2 / s < 27 := by
    rw [Nat.div_lt_iff_lt_mul hs2]
    omega
  refine ⟨Int.ofNat_nonneg _, ?_, ⟨Int.ofNat_nonneg _, ?_⟩, ⟨Int.ofNat_nonneg _, ?_⟩⟩
  · rcases Nat.lt_or_ge (r1 / (27 * s)) 1 with h | h
    · left; rw [Nat.lt_one_iff.mp h]; rfl
    · right; rw [Nat.le_antisymm (Nat.le_of_lt_succ hsb) h]; rfl
  · exact_mod_cast Nat.le_of_lt_succ hst
  · exact_mod_cast b3

/-- Witness for C10 (amended), at an item count that `float64` does not hold exactly,
`calc(9007199254740993, 64)`. -/
theorem calcParts_canonical_witness :
    ∃ lc sb st r : Int, calcParts 9007199254740993 64 = some (lc, sb, st, r) ∧
      0 ≤ lc ∧ (sb = 0 ∨ sb = 1) ∧ (0 ≤ st ∧ st ≤ 26) ∧ (0 ≤ r ∧ r < 64) :=
  calcParts_canonical 9007199254740993 64 (by decide) (by decide) (by decide) (by decide)

/-- Why the amended claims C1, C2, C7 and C8 stop below `2 ^ 53`: at the item count
`2 ^ 53 + 1` and the stack size 64 the rounding inside `mod` (see C9) makes `calc` compute
the counts of `2 ^ 53`, so one item is lost and two item counts share a reply. -/
theorem calcParts_beyond_exact_range :
    calcParts (2 ^ 53 + 1) 64 = some (2606249784357, 1, 23, 0) ∧
      (2606249784357 : Int) * 54 * 64 + 1 * 27 * 64 + 23 * 64 + 0 = 2 ^ 53 ∧
      calcUnits (2 ^ 53 + 1) 64 = calcUnits (2 ^ 53) 64 := by
  decide

end McCalc
